import Mathlib

/-!
Shallow embedding of the blockchain-tree core
(crates/executor/src/blockchain_tree/{mod.rs, chain.rs, block_indices.rs}).

Blocks carry a number, a hash and a parent hash; hashes are modelled as
natural numbers.  Rust `HashMap`s are modelled as association lists with
unique keys, `HashSet`/`BTreeSet` as lists used as sets, and the ordered
`BTreeMap` for the canonical chain as an association list whose ordered
reads (`last_key_value`, `first`) are modelled by taking the maximum or
minimum key.  Panics (`expect`, `unwrap`, `unreachable!`) are modelled by
an `Option` result (`none` = panic), and a fuel parameter makes the two
`while` loops structural; a run that needs more fuel than supplied also
returns `none`, so a result of `some` is independent of the fuel actually
consumed.  The external collaborators `db` and `consensus` are out of
scope per the spec; `consensus` is passed as a function parameter where
the source consults it, and the durable store is not part of the tree
state.
-/

namespace RethTree

/-- A sealed block: number, hash, parent hash; the payload is opaque. -/
structure SealedBlock where
  number : Nat
  hash : Nat
  parent_hash : Nat
deriving DecidableEq, Repr

/-- `BlockJoint`: number and hash of the block a chain branches from. -/
structure BlockJoint where
  number : Nat
  hash : Nat
deriving DecidableEq, Repr

/-- `ChainSubState` is `bool` in the source scaffolding. -/
abbrev ChainSubState := Bool

/-- A side chain: pending state, changesets and the block sequence. -/
structure Chain where
  pending_state : ChainSubState
  changesets : List Bool
  blocks : List SealedBlock
deriving DecidableEq, Repr

/-- `Chain::default()`: empty pending state, changesets and blocks. -/
def Chain.defaultChain : Chain := ⟨false, [], []⟩

/-- `consensus.validate_header(child, parent)` as a function parameter. -/
abbrev Consensus := SealedBlock → SealedBlock → Except Unit Unit

/-- Errors of `reth_interfaces::executor::Error` used by the tree. -/
inductive TreeError where
  | PendingBlockIsFinalized (block_number : Nat) (block_hash : Nat) (last_finalized : Nat)
  | PendingBlockIsInFuture (block_number : Nat) (block_hash : Nat) (last_finalized : Nat)
  | ChainIdConsistency (chain_id : Nat)
deriving DecidableEq, Repr

instance {ε α : Type} [DecidableEq ε] [DecidableEq α] : DecidableEq (Except ε α) := fun x y =>
  match x, y with
  | .ok a, .ok b =>
    if h : a = b then isTrue (by rw [h]) else isFalse (fun hc => h (Except.ok.inj hc))
  | .error a, .error b =>
    if h : a = b then isTrue (by rw [h]) else isFalse (fun hc => h (Except.error.inj hc))
  | .ok _, .error _ => isFalse (fun hc => Except.noConfusion hc)
  | .error _, .ok _ => isFalse (fun hc => Except.noConfusion hc)

/-! ### Association-list model of `HashMap` with `Nat` keys -/

/-- `HashMap::get`. -/
def lookupA {α : Type} : List (Nat × α) → Nat → Option α
  | [], _ => none
  | (k, v) :: rest, key => if k = key then some v else lookupA rest key

/-- `HashMap::insert` (replaces an existing binding). -/
def insertA {α : Type} : List (Nat × α) → Nat → α → List (Nat × α)
  | [], key, v => [(key, v)]
  | (k, w) :: rest, key, v =>
    if k = key then (k, v) :: rest else (k, w) :: insertA rest key v

/-- `HashMap::remove`: the removed value (if any) and the remaining map. -/
def removeA {α : Type} : List (Nat × α) → Nat → Option α × List (Nat × α)
  | [], _ => (none, [])
  | (k, v) :: rest, key =>
    if k = key then (some v, rest)
    else
      let p := removeA rest key
      (p.1, (k, v) :: p.2)

/-! ### List model of `HashSet` / `BTreeSet` with `Nat` elements -/

/-- Set insert. -/
def insertS (s : List Nat) (x : Nat) : List Nat := if x ∈ s then s else s ++ [x]

/-- `BTreeSet::extend`. -/
def extendS (s : List Nat) (xs : List Nat) : List Nat := xs.foldl insertS s

/-- `HashSet::remove`. -/
def removeS (s : List Nat) (x : Nat) : List Nat := s.filter (fun y => y ≠ x)

/-- Minimum element: `BTreeSet::first`. -/
def listMin : List Nat → Option Nat
  | [] => none
  | x :: xs =>
    match listMin xs with
    | none => some x
    | some y => some (min x y)

/-- `entry(key).or_default().insert(v)` on a map of sets. -/
def insertEntry (m : List (Nat × List Nat)) (key v : Nat) : List (Nat × List Nat) :=
  match lookupA m key with
  | none => insertA m key [v]
  | some s => insertA m key (insertS s v)

/-- `if let Some(set) = m.get_mut(key) \x7b set.remove(v); \x7d`. -/
def removeFromEntry (m : List (Nat × List Nat)) (key v : Nat) : List (Nat × List Nat) :=
  match lookupA m key with
  | none => m
  | some s => insertA m key (removeS s v)

/-- Entry with the maximal key: `BTreeMap::last_key_value`. -/
def lastKeyValue (m : List (Nat × Nat)) : Option (Nat × Nat) :=
  m.foldl
    (fun acc p =>
      match acc with
      | none => some p
      | some q => if q.1 ≤ p.1 then some p else some q)
    none

/-- Keys of an association list. -/
def keysOf {α : Type} (m : List (Nat × α)) : List Nat := m.map (fun p => p.1)

/-- Membership of a key. -/
def keyMem {α : Type} (m : List (Nat × α)) (k : Nat) : Prop := k ∈ keysOf m

/-- Minimal key of an association list. -/
def minKey (m : List (Nat × Nat)) : Option Nat := listMin (keysOf m)

/-! ### Chain operations (chain.rs) -/

/-- `Chain::first`; the source `expect`s a non-empty block list. -/
def Chain.first (c : Chain) : Option SealedBlock := c.blocks.head?

/-- `Chain::last`; the source `expect`s a non-empty block list. -/
def Chain.last (c : Chain) : Option SealedBlock := c.blocks.getLast?

/-- `Chain::tip` is `Chain::last`. -/
def Chain.tip (c : Chain) : Option SealedBlock := c.last

/-- `Chain::joint_block`: number and parent hash of the first block. -/
def Chain.joint_block (c : Chain) : Option BlockJoint :=
  c.first.map (fun f => ⟨f.number - 1, f.parent_hash⟩)

/-- `Chain::joint_block_number`. -/
def Chain.joint_block_number (c : Chain) : Option Nat :=
  c.first.map (fun f => f.number - 1)

/-- `Chain::joint_block_hash`. -/
def Chain.joint_block_hash (c : Chain) : Option Nat :=
  c.first.map (fun f => f.parent_hash)

/-- `Chain::new_canonical_joint`: the source body is `Ok(Self::default())`
(the provider and consensus parameters are unused there). -/
def Chain.new_canonical_joint (_block : SealedBlock) : Except TreeError Chain :=
  .ok Chain.defaultChain

/-- `Chain::new_chain_joint`: the source body is `Ok(Self::default())`. -/
def Chain.new_chain_joint (_self : Chain) (_block : SealedBlock) : Except Unit Chain :=
  .ok Chain.defaultChain

/-- `Chain::append_block`: errors if the block list is empty, otherwise
calls `consensus.validate_header` with its result discarded by the
source's binding of the call to an unused variable, and pushes the block
unconditionally. -/
def Chain.append_block (c : Chain) (block : SealedBlock) (consensus : Consensus) :
    Except Unit Chain :=
  match c.blocks.getLast? with
  | none => .error ()
  | some parent =>
    let _ := consensus block parent
    .ok { c with blocks := c.blocks ++ [block] }

/-- `Chain::append_chain`: the source body is `Ok(())` and mutates
nothing, so the receiving chain is returned unchanged. -/
def Chain.append_chain (c : Chain) (_chain : Chain) : Except Unit Chain := .ok c

/-- `Chain::split_at_block_hash`: the source body is `(None, None)` for
every input. -/
def Chain.split_at_block_hash (_self : Chain) (_block_hash : Nat) :
    Option Chain × Option Chain := (none, none)

/-- `Chain::split_at_number`: the source body is `(None, None)` for every
input. -/
def Chain.split_at_number (_self : Chain) (_block_number : Nat) :
    Option Chain × Option Chain := (none, none)

/-! ### BlockIndices (block_indices.rs) -/

/-- The cross-index maps of the tree. -/
structure BlockIndices where
  fork_to_child : List (Nat × List Nat)
  canonical_chain : List (Nat × Nat)
  blocks_to_chain : List (Nat × Nat)
  number_to_block : List (Nat × List Nat)
deriving DecidableEq, Repr

/-- `BlockIndices::insert_chain`: index every block of the chain, then
record the chain's first block under its fork parent.  `chain.first()`
panics (`none`) when the chain has no blocks. -/
def BlockIndices.insert_chain (bi : BlockIndices) (chain_id : Nat) (chain : Chain) :
    Option BlockIndices :=
  let bi1 := chain.blocks.foldl
    (fun acc block =>
      { acc with
        blocks_to_chain := insertA acc.blocks_to_chain block.hash chain_id,
        number_to_block := insertEntry acc.number_to_block block.number block.hash })
    bi
  match chain.first with
  | none => none
  | some first =>
    some { bi1 with
           fork_to_child := insertEntry bi1.fork_to_child first.parent_hash first.hash }

/-- `BlockIndices::get_block_chain_id`. -/
def BlockIndices.get_block_chain_id (bi : BlockIndices) (block : Nat) : Option Nat :=
  lookupA bi.blocks_to_chain block

/-- The harvesting fold shared by `remove_chain` and
`finalize_canonical_blocks`: for each fork-child hash remove its
`blocks_to_chain` binding, collecting the freed chain ids. -/
def harvestForkChildren : List Nat → List Nat × BlockIndices → List Nat × BlockIndices
  | [], acc => acc
  | fork_child :: rest, acc =>
    match removeA acc.2.blocks_to_chain fork_child with
    | (some lose_chain, btc) =>
      harvestForkChildren rest (insertS acc.1 lose_chain, { acc.2 with blocks_to_chain := btc })
    | (none, btc) =>
      harvestForkChildren rest (acc.1, { acc.2 with blocks_to_chain := btc })

/-- Unindexing of one block by the `remove_chain` loop: drop its hash
from the height index and from the chain index. -/
def unindexBlock (block : SealedBlock) (bi : BlockIndices) : BlockIndices :=
  { bi with
    number_to_block := removeFromEntry bi.number_to_block block.number block.hash,
    blocks_to_chain := (removeA bi.blocks_to_chain block.hash).2 }

/-- The per-block body of `remove_chain`, iterated over the chain's
blocks: unindex the block, then harvest the chains whose fork parent it
was. -/
def removeChainGo : List SealedBlock → List Nat × BlockIndices → List Nat × BlockIndices
  | [], acc => acc
  | block :: rest, acc =>
    match removeA (unindexBlock block acc.2).fork_to_child block.hash with
    | (some fork_blocks, ftc) =>
      removeChainGo rest
        (harvestForkChildren fork_blocks
          (acc.1, { unindexBlock block acc.2 with fork_to_child := ftc }))
    | (none, _) => removeChainGo rest (acc.1, unindexBlock block acc.2)

/-- `BlockIndices::remove_chain`. -/
def BlockIndices.remove_chain (bi : BlockIndices) (chain : Chain) :
    List Nat × BlockIndices :=
  removeChainGo chain.blocks ([], bi)

/-- The harvesting loop of `finalize_canonical_blocks`, iterated over the
discarded canonical entries. -/
def finalizeHarvestGo : List (Nat × Nat) → List Nat × BlockIndices → List Nat × BlockIndices
  | [], acc => acc
  | entry :: rest, acc =>
    match removeA acc.2.fork_to_child entry.2 with
    | (some fork_blocks, ftc) =>
      finalizeHarvestGo rest
        (harvestForkChildren fork_blocks (acc.1, { acc.2 with fork_to_child := ftc }))
    | (none, _) => finalizeHarvestGo rest (acc.1, acc.2)

/-- `BlockIndices::finalize_canonical_blocks`: `split_off(n + 1)` keeps
the canonical entries with keys greater than `n` and discards the rest,
then harvests the chains forking off a discarded canonical block. -/
def BlockIndices.finalize_canonical_blocks (bi : BlockIndices) (block_number : Nat) :
    List Nat × BlockIndices :=
  let finalized_blocks := bi.canonical_chain.filter (fun p => p.1 < block_number + 1)
  let bi1 := { bi with
               canonical_chain := bi.canonical_chain.filter (fun p => ¬ p.1 < block_number + 1) }
  finalizeHarvestGo finalized_blocks ([], bi1)

/-- `BlockIndices::canonical_hash`. -/
def BlockIndices.canonical_hash (bi : BlockIndices) (block_number : Nat) : Option Nat :=
  lookupA bi.canonical_chain block_number

/-- `BlockIndices::canonical_tip`; the source `expect`s a non-empty
canonical chain. -/
def BlockIndices.canonical_tip (bi : BlockIndices) : Option BlockJoint :=
  (lastKeyValue bi.canonical_chain).map (fun p => ⟨p.1, p.2⟩)

/-! ### BlockchainTree (mod.rs) -/

/-- The blockchain tree.  The `db` and `consensus` collaborators of the
source struct are external; `consensus` is passed to the operations that
consult it and the durable store is not part of the tree state. -/
structure BlockchainTree where
  chains : List (Nat × Chain)
  chain_id_generator : Nat
  block_indices : BlockIndices
  finalized_block : Nat
  max_chain_length : Nat
deriving DecidableEq, Repr

/-- `BlockchainTree::insert_chain`: take the next chain id, bump the
generator, index the chain and store it.  Indexing panics (`none`) on an
empty chain. -/
def BlockchainTree.insert_chain (t : BlockchainTree) (chain : Chain) :
    Option (Nat × BlockchainTree) :=
  match t.block_indices.insert_chain t.chain_id_generator chain with
  | none => none
  | some bi =>
    some (t.chain_id_generator,
      { t with
        chain_id_generator := t.chain_id_generator + 1,
        block_indices := bi,
        chains := insertA t.chains t.chain_id_generator chain })

/-- `BlockchainTree::join_block_to_chain`: append to the parent chain's
tip, or branch a new chain from an interior block.  `tip()` panics on an
empty parent chain; the result of `append_block` is discarded by the
source (`let _ = ...`), and `new_chain_joint(...).unwrap()` never panics
because that function always returns `Ok`. -/
def BlockchainTree.join_block_to_chain (t : BlockchainTree) (block : SealedBlock)
    (chain_id : Nat) (consensus : Consensus) :
    Option (Except TreeError Unit × BlockchainTree) :=
  match lookupA t.chains chain_id with
  | none => some (.error (.ChainIdConsistency chain_id), t)
  | some parent_chain =>
    match parent_chain.tip with
    | none => none
    | some tip =>
      if tip.hash = block.parent_hash then
        match parent_chain.append_block block consensus with
        | .ok updated => some (.ok (), { t with chains := insertA t.chains chain_id updated })
        | .error _ => some (.ok (), t)
      else
        match parent_chain.new_chain_joint block with
        | .error _ => none
        | .ok chain =>
          match t.insert_chain chain with
          | none => none
          | some p => some (.ok (), p.2)

/-- `BlockchainTree::insert_block`: admission checks, then parent lookup
in the side-chain index, then in the canonical chain; an unknown parent
is silently accepted.  The write to the durable `PendingBlocks` table is
external to the tree state. -/
def BlockchainTree.insert_block (t : BlockchainTree) (block : SealedBlock)
    (consensus : Consensus) : Option (Except TreeError Unit × BlockchainTree) :=
  if block.number ≤ t.finalized_block then
    some (.error (.PendingBlockIsFinalized block.number block.hash t.finalized_block), t)
  else if t.finalized_block + t.max_chain_length < block.number then
    some (.error (.PendingBlockIsInFuture block.number block.hash t.finalized_block), t)
  else
    match t.block_indices.get_block_chain_id block.parent_hash with
    | some parent_chain =>
      match t.join_block_to_chain block parent_chain consensus with
      | none => none
      | some (.error e, t1) => some (.error e, t1)
      | some (.ok _, t1) => some (.ok (), t1)
    | none =>
      if t.block_indices.canonical_hash (block.number - 1) = some block.parent_hash then
        match Chain.new_canonical_joint block with
        | .error e => some (.error e, t)
        | .ok chain =>
          match t.insert_chain chain with
          | none => none
          | some p => some (.ok (), p.2)
      else
        some (.ok (), t)

/-- The worklist loop of `finalize_block`.  Faithful to the source, the
examined id is obtained with `BTreeSet::first`, which does not remove it
from the set. -/
def finalizeLoop (fuel : Nat) (remove_chains : List Nat) (chains : List (Nat × Chain))
    (bi : BlockIndices) : Option (List (Nat × Chain) × BlockIndices) :=
  match fuel with
  | 0 =>
    match listMin remove_chains with
    | none => some (chains, bi)
    | some _ => none
  | fuel + 1 =>
    match listMin remove_chains with
    | none => some (chains, bi)
    | some chain_id =>
      match removeA chains chain_id with
      | (some chain, chains1) =>
        let p := bi.remove_chain chain
        finalizeLoop fuel (extendS remove_chains p.1) chains1 p.2
      | (none, _) => finalizeLoop fuel remove_chains chains bi

/-- Reassemble the tree from the loop result. -/
def finalizeFinish (t : BlockchainTree) (finalized_block : Nat) :
    Option (List (Nat × Chain) × BlockIndices) → Option BlockchainTree
  | none => none
  | some q =>
    some { t with
           chains := q.1,
           block_indices := q.2,
           finalized_block := finalized_block }

/-- Run the worklist loop on the harvest result and reassemble. -/
def finalizeWith (fuel : Nat) (t : BlockchainTree) (finalized_block : Nat)
    (p : List Nat × BlockIndices) : Option BlockchainTree :=
  finalizeFinish t finalized_block (finalizeLoop fuel p.1 t.chains p.2)

/-- `BlockchainTree::finalize_block`. -/
def BlockchainTree.finalize_block (fuel : Nat) (t : BlockchainTree)
    (finalized_block : Nat) : Option BlockchainTree :=
  finalizeWith fuel t finalized_block
    (t.block_indices.finalize_canonical_blocks finalized_block)

/-- State threaded through the promotion loop of `make_canonical`. -/
structure PromoteState where
  chains : List (Nat × Chain)
  block_joint : BlockJoint
  block_joint_number : Nat
  chains_to_promote : List Chain
deriving DecidableEq, Repr

/-- The promotion loop of `make_canonical` (walk joints toward the
canonical chain).  Each iteration `expect`s the joint's chain to be
present, and `expect`s the first half of `split_at_number`; since
`split_at_number` returns `(none, none)` for every input, any iteration
that is actually entered panics. -/
def promoteLoop (fuel : Nat) (bi : BlockIndices) (st : PromoteState) : Option PromoteState :=
  match fuel with
  | 0 =>
    match bi.get_block_chain_id st.block_joint.hash with
    | none => some st
    | some _ => none
  | fuel + 1 =>
    match bi.get_block_chain_id st.block_joint.hash with
    | none => some st
    | some chain_id =>
      match removeA st.chains chain_id with
      | (none, _) => none
      | (some chain, chains1) =>
        match chain.joint_block with
        | none => none
        | some bj =>
          match chain.split_at_number st.block_joint_number with
          | (none, _) => none
          | (some canonical, rest) =>
            let chains2 :=
              match rest with
              | some rest_of_sidechain => insertA chains1 chain_id rest_of_sidechain
              | none => chains1
            match canonical.joint_block_number with
            | none => none
            | some n =>
              promoteLoop fuel bi
                { chains := chains2,
                  block_joint := bj,
                  block_joint_number := n,
                  chains_to_promote := st.chains_to_promote ++ [canonical] }

/-- The phase-2 merge of `make_canonical`: fold `append_chain` over the
collected chains (the source iterates the remaining vector in reverse,
propagating errors with the question-mark operator). -/
def appendChains : Chain → List Chain → Except Unit Chain
  | acc, [] => .ok acc
  | acc, c :: cs =>
    match acc.append_chain c with
    | .error e => .error e
    | .ok acc1 => appendChains acc1 cs

/-- `BlockchainTree::make_canonical`.  An unknown hash is an immediate
`Err` (`ok_or(())?`).  Otherwise the found chain is removed and split;
since `split_at_block_hash` returns `(none, none)` for every input, the
`expect` on the first half panics and no later phase is reachable.  The
later phases are still modelled faithfully: the promotion loop, the
merge, and the commit phase in which `commit_canonical` is a source-level
no-op returning `Ok`, `revert_canonical` returns `Ok(Chain::default())`,
the sanity check raises `unreachable!` and the final `insert_chain` of
the reverted (default, hence empty) chain panics while indexing. -/
def BlockchainTree.make_canonical (fuel : Nat) (t : BlockchainTree) (block_hash : Nat) :
    Option (Except Unit Unit × BlockchainTree) :=
  match t.block_indices.get_block_chain_id block_hash with
  | none => some (.error (), t)
  | some chain_id =>
    match removeA t.chains chain_id with
    | (none, _) => none
    | (some chain, chains0) =>
      match chain.split_at_block_hash block_hash with
      | (none, _) => none
      | (some canonical, pending) =>
        let chains1 :=
          match pending with
          | some p => insertA chains0 chain_id p
          | none => chains0
        match canonical.joint_block, canonical.joint_block_number with
        | some bj, some bjn =>
          match promoteLoop fuel t.block_indices ⟨chains1, bj, bjn, [canonical]⟩ with
          | none => none
          | some st =>
            match t.block_indices.canonical_tip with
            | none => none
            | some old_tip =>
              match st.chains_to_promote.getLast? with
              | none => none
              | some new_canon =>
                match appendChains new_canon st.chains_to_promote.dropLast.reverse with
                | .error _ => some (.error (), { t with chains := st.chains })
                | .ok new_canon_chain =>
                  match new_canon_chain.joint_block_hash with
                  | none => none
                  | some jh =>
                    if jh = old_tip.hash then
                      some (.ok (), { t with chains := st.chains })
                    else
                      match new_canon_chain.joint_block with
                      | none => none
                      | some canon_joint =>
                        if t.block_indices.canonical_hash canon_joint.number
                            ≠ some canon_joint.hash then
                          none
                        else
                          match ({ t with chains := st.chains } :
                              BlockchainTree).insert_chain Chain.defaultChain with
                          | none => none
                          | some p => some (.ok (), p.2)
        | _, _ => none

/-! ### Derived predicates and operation traces -/

/-- Hashes of the blocks of a chain. -/
def chainHashes (c : Chain) : List Nat := c.blocks.map (fun b => b.hash)

/-- The global invariants of the spec (section 3): block/index agreement,
joint resolution, canonical contiguity, fork-child exactness and the
finalization bound. -/
def TreeInvariants (t : BlockchainTree) : Prop :=
  (∀ p ∈ t.block_indices.blocks_to_chain,
    ∃ c, lookupA t.chains p.2 = some c ∧
      ∃ b ∈ c.blocks, b.hash = p.1 ∧
        ∃ s, lookupA t.block_indices.number_to_block b.number = some s ∧ b.hash ∈ s) ∧
  (∀ p ∈ t.chains, ∀ j, (p.2).joint_block = some j →
    (t.block_indices.canonical_hash j.number = some j.hash) ≠
      (keyMem t.block_indices.blocks_to_chain j.hash)) ∧
  (∃ hi, ∀ k, keyMem t.block_indices.canonical_chain k ↔
    t.finalized_block ≤ k ∧ k ≤ hi) ∧
  (∀ p ∈ t.block_indices.fork_to_child, ∀ h,
    h ∈ p.2 ↔ ∃ q ∈ t.chains, (q.2).joint_block_hash = some p.1 ∧
      ((q.2).first).map (fun b => b.hash) = some h) ∧
  (∀ p ∈ t.chains, ∀ b ∈ (p.2).blocks, t.finalized_block < b.number)

/-- The condition under which `insert_block` reaches the canonical-parent
lookup at index `block.number - 1`: both admission checks passed and the
parent hash was not found in the side-chain index. -/
def reachesCanonicalParentLookup (t : BlockchainTree) (block : SealedBlock) : Prop :=
  t.finalized_block < block.number ∧
  block.number ≤ t.finalized_block + t.max_chain_length ∧
  t.block_indices.get_block_chain_id block.parent_hash = none

/-- One public operation on the tree. -/
inductive TreeOp where
  | insert (block : SealedBlock)
  | finalize (fuel : Nat) (number : Nat)
  | makeCanon (fuel : Nat) (hash : Nat)
deriving DecidableEq, Repr

/-- Run one public operation. -/
def runOp (consensus : Consensus) : TreeOp → BlockchainTree → Option BlockchainTree
  | .insert block, t => (t.insert_block block consensus).map (fun p => p.2)
  | .finalize fuel n, t => BlockchainTree.finalize_block fuel t n
  | .makeCanon fuel h, t => (BlockchainTree.make_canonical fuel t h).map (fun p => p.2)

/-- Run a sequence of public operations. -/
def runOps (consensus : Consensus) : List TreeOp → BlockchainTree → Option BlockchainTree
  | [], t => some t
  | op :: ops, t =>
    match runOp consensus op t with
    | none => none
    | some t1 => runOps consensus ops t1

/-! ### Concrete states used by the witnesses and counterexamples -/

/-- A consensus that accepts every header. -/
def acceptAll : Consensus := fun _ _ => .ok ()

/-- A consensus that rejects every header. -/
def rejectAll : Consensus := fun _ _ => .error ()

/-- Side chain holding the single block `#1` (hash 200, parent 100). -/
def chainW : Chain := ⟨false, [], [⟨1, 200, 100⟩]⟩

/-- Tree whose canonical chain is `0 ↦ 100, 1 ↦ 101` with one side chain
(id 5) forking off the finalized-to-be canonical block 100. -/
def treeW1 : BlockchainTree :=
  { chains := [(5, chainW)],
    chain_id_generator := 6,
    block_indices :=
      { fork_to_child := [(100, [200])],
        canonical_chain := [(0, 100), (1, 101)],
        blocks_to_chain := [(200, 5)],
        number_to_block := [(1, [200])] },
    finalized_block := 0,
    max_chain_length := 10 }

/-- The indices of `treeW1` right after `finalize_canonical_blocks 0`. -/
def biW1 : BlockIndices :=
  { fork_to_child := [],
    canonical_chain := [(1, 101)],
    blocks_to_chain := [],
    number_to_block := [(1, [200])] }

/-- Tree with canonical chain `0 ↦ 100, 1 ↦ 101, 2 ↦ 102`, no side
chains. -/
def treeW2 : BlockchainTree :=
  { chains := [],
    chain_id_generator := 0,
    block_indices :=
      { fork_to_child := [],
        canonical_chain := [(0, 100), (1, 101), (2, 102)],
        blocks_to_chain := [],
        number_to_block := [] },
    finalized_block := 0,
    max_chain_length := 10 }

/-- `treeW2` after `finalize_block 1`: only canonical key 2 remains. -/
def treeW2' : BlockchainTree :=
  { chains := [],
    chain_id_generator := 0,
    block_indices :=
      { fork_to_child := [],
        canonical_chain := [(2, 102)],
        blocks_to_chain := [],
        number_to_block := [] },
    finalized_block := 1,
    max_chain_length := 10 }

/-- Non-empty chain whose tip is block `#1` with hash 1. -/
def chainW3 : Chain := ⟨false, [], [⟨1, 1, 0⟩]⟩

/-- A block whose parent hash (999) matches nothing. -/
def blockW3 : SealedBlock := ⟨5, 7, 999⟩

/-- Chain with blocks at heights 1 and 2, for the split round-trip. -/
def chainW4 : Chain := ⟨false, [], [⟨1, 1, 0⟩, ⟨2, 2, 1⟩]⟩

/-- Block `#6` (hash 6) whose parent is the canonical tip of `treeW5`. -/
def blockW5 : SealedBlock := ⟨6, 6, 5⟩

/-- Tree whose canonical tip is block `#5` with hash 5. -/
def treeW5 : BlockchainTree :=
  { chains := [],
    chain_id_generator := 0,
    block_indices :=
      { fork_to_child := [],
        canonical_chain := [(5, 5)],
        blocks_to_chain := [],
        number_to_block := [] },
    finalized_block := 0,
    max_chain_length := 10 }

/-- Block at the lower admission boundary of `treeW6`. -/
def blockW6low : SealedBlock := ⟨1, 11, 0⟩

/-- Block at the upper admission boundary of `treeW6`
(`finalized + max_chain_length + 1 = 7`). -/
def blockW6high : SealedBlock := ⟨7, 17, 0⟩

/-- Tree with `finalized_block = 1` and `max_chain_length = 5`. -/
def treeW6 : BlockchainTree :=
  { chains := [],
    chain_id_generator := 0,
    block_indices :=
      { fork_to_child := [],
        canonical_chain := [(1, 101), (2, 102)],
        blocks_to_chain := [],
        number_to_block := [] },
    finalized_block := 1,
    max_chain_length := 5 }

/-- Block `#2` whose parent hash 55 is unknown to `treeW6`. -/
def blockW7 : SealedBlock := ⟨2, 22, 55⟩

/-- Singleton chain used by the chain-id witness. -/
def chainW9a : Chain := ⟨false, [], [⟨1, 5, 100⟩]⟩

/-- Second singleton chain used by the chain-id witness. -/
def chainW9b : Chain := ⟨false, [], [⟨2, 6, 5⟩]⟩

/-- Fresh tree with canonical chain `0 ↦ 100` and no side chains. -/
def treeW9 : BlockchainTree :=
  { chains := [],
    chain_id_generator := 0,
    block_indices :=
      { fork_to_child := [],
        canonical_chain := [(0, 100)],
        blocks_to_chain := [],
        number_to_block := [] },
    finalized_block := 0,
    max_chain_length := 10 }

/-- `treeW9` after inserting `chainW9a` (chain id 0 assigned). -/
def treeW9a : BlockchainTree :=
  { chains := [(0, chainW9a)],
    chain_id_generator := 1,
    block_indices :=
      { fork_to_child := [(100, [5])],
        canonical_chain := [(0, 100)],
        blocks_to_chain := [(5, 0)],
        number_to_block := [(1, [5])] },
    finalized_block := 0,
    max_chain_length := 10 }

/-- `treeW9a` after inserting `chainW9b` (chain id 1 assigned). -/
def treeW9c : BlockchainTree :=
  { chains := [(0, chainW9a), (1, chainW9b)],
    chain_id_generator := 2,
    block_indices :=
      { fork_to_child := [(100, [5]), (5, [6])],
        canonical_chain := [(0, 100)],
        blocks_to_chain := [(5, 0), (6, 1)],
        number_to_block := [(1, [5]), (2, [6])] },
    finalized_block := 0,
    max_chain_length := 10 }

/-! ### Theorems -/

/-- C6: `insert_block` rejects `block.number ≤ finalized_block` with
`PendingBlockIsFinalized` (including the boundary `number =
finalized_block`) and `block.number > finalized_block +
max_chain_length` with `PendingBlockIsInFuture` (including the boundary
one past the window), in both cases returning the tree unchanged. -/
theorem insert_block_admission_bounds (t : BlockchainTree) (block : SealedBlock)
    (consensus : Consensus) :
    (block.number ≤ t.finalized_block →
      t.insert_block block consensus =
        some (.error (.PendingBlockIsFinalized block.number block.hash t.finalized_block), t)) ∧
    (t.finalized_block + t.max_chain_length < block.number →
      t.insert_block block consensus =
        some (.error (.PendingBlockIsInFuture block.number block.hash t.finalized_block), t)) := by
  constructor
  · intro h
    simp [BlockchainTree.insert_block, h]
  · intro h
    have h1 : ¬ block.number ≤ t.finalized_block := by omega
    simp [BlockchainTree.insert_block, h1, h]

/-- Witness for C6 at the two boundaries: with `finalized_block = 1` and
`max_chain_length = 5`, block number 1 is rejected as finalized and
block number 7 as in the future, leaving the tree unchanged. -/
theorem insert_block_admission_bounds_witness :
    treeW6.insert_block blockW6low acceptAll =
      some (.error (.PendingBlockIsFinalized 1 11 1), treeW6) ∧
    treeW6.insert_block blockW6high acceptAll =
      some (.error (.PendingBlockIsInFuture 7 17 1), treeW6) :=
  ⟨(insert_block_admission_bounds treeW6 blockW6low acceptAll).1 (by decide),
   (insert_block_admission_bounds treeW6 blockW6high acceptAll).2 (by decide)⟩

/-- C7: a block passing both admission bounds whose parent hash is
neither held by a side chain nor canonical at height `number - 1` is
silently accepted: `insert_block` returns `Ok` and the tree (chains and
all indices) is unchanged. -/
theorem insert_block_unknown_parent (t : BlockchainTree) (block : SealedBlock)
    (consensus : Consensus)
    (h1 : t.finalized_block < block.number)
    (h2 : block.number ≤ t.finalized_block + t.max_chain_length)
    (h3 : t.block_indices.get_block_chain_id block.parent_hash = none)
    (h4 : t.block_indices.canonical_hash (block.number - 1) ≠ some block.parent_hash) :
    t.insert_block block consensus = some (.ok (), t) := by
  have g1 : ¬ block.number ≤ t.finalized_block := by omega
  have g2 : ¬ t.finalized_block + t.max_chain_length < block.number := by omega
  simp [BlockchainTree.insert_block, g1, g2, h3, h4]

/-- Witness for C7: block number 2 with unknown parent hash 55 is
accepted by `treeW6` without any change. -/
theorem insert_block_unknown_parent_witness :
    treeW6.insert_block blockW7 acceptAll = some (.ok (), treeW6) :=
  insert_block_unknown_parent treeW6 blockW7 acceptAll (by decide) (by decide)
    (by decide) (by decide)

/-- C8: `make_canonical` on a hash not held by any side chain returns
`Err` immediately with the tree unchanged, so the global invariants keep
holding on that `Err` return. -/
theorem make_canonical_unknown_block (fuel : Nat) (t : BlockchainTree) (h : Nat)
    (hnone : t.block_indices.get_block_chain_id h = none) :
    BlockchainTree.make_canonical fuel t h = some (.error (), t) ∧
    (TreeInvariants t → TreeInvariants t) := by
  refine ⟨?_, fun hi => hi⟩
  simp [BlockchainTree.make_canonical, hnone]

/-- Witness for C8: hash 999 is unknown to `treeW6`. -/
theorem make_canonical_unknown_block_witness :
    BlockchainTree.make_canonical 3 treeW6 999 = some (.error (), treeW6) ∧
    (TreeInvariants treeW6 → TreeInvariants treeW6) :=
  make_canonical_unknown_block 3 treeW6 999 (by decide)

/-- C10: any block that reaches the canonical-parent lookup of
`insert_block` has passed the check `finalized_block < number` with an
unsigned `finalized_block`, so `number ≥ 1` and the subtraction
`number - 1` cannot underflow. -/
theorem insert_block_no_underflow (t : BlockchainTree) (block : SealedBlock)
    (h : reachesCanonicalParentLookup t block) :
    1 ≤ block.number ∧ block.number - 1 + 1 = block.number := by
  obtain ⟨h1, h2, h3⟩ := h
  omega

/-- Witness for C10: `blockW7` reaches the lookup in `treeW6` and its
number 2 is positive. -/
theorem insert_block_no_underflow_witness :
    1 ≤ blockW7.number ∧ blockW7.number - 1 + 1 = blockW7.number :=
  insert_block_no_underflow treeW6 blockW7 ⟨by decide, by decide, by decide⟩

/-- C3: code bug — `append_block` neither checks the parent linkage nor
heeds the consensus verdict (its result is discarded): on the non-empty
chain `chainW3`, whose tip hash is 1, it appends `blockW3` (parent hash
999) and returns `Ok` even under a consensus rejecting every header,
where the claim requires the `InvalidLink` error. -/
theorem append_block_ignores_link_and_consensus :
    chainW3.tip = some ⟨1, 1, 0⟩ ∧
    blockW3.parent_hash = 999 ∧
    chainW3.append_block blockW3 rejectAll =
      .ok ⟨false, [], [⟨1, 1, 0⟩, ⟨5, 7, 999⟩]⟩ :=
  ⟨rfl, rfl, rfl⟩

/-- C4: code bug — `split_at_number` returns `(none, none)` for every
input (here on a chain with blocks at heights 1 and 2, split at 1, where
its own documentation promises both halves), so no split ever yields two
non-empty halves; `append_chain` is likewise a no-op returning the
receiver unchanged, so the split/merge round-trip law is unrealizable in
the code. -/
theorem split_at_number_stub_breaks_roundtrip :
    chainW4.split_at_number 1 = (none, none) ∧
    chainW4.append_chain chainW4 = .ok chainW4 :=
  ⟨rfl, rfl⟩

/-- C5: code bug — `new_canonical_joint` returns `Chain::default()`,
whose block sequence is empty rather than containing exactly the
inserted block; consequently `insert_block` of a block joining the
canonical tip panics inside `BlockIndices::insert_chain` when it takes
`chain.first()` (modelled as `none`). -/
theorem new_canonical_joint_produces_empty_chain :
    Chain.new_canonical_joint blockW5 = .ok Chain.defaultChain ∧
    Chain.defaultChain.blocks.length = 0 ∧
    treeW5.insert_block blockW5 acceptAll = none :=
  ⟨rfl, rfl, rfl⟩

/-- Once the worklist holds the id 5 and the chain map no longer does,
every iteration of the loop re-reads the same id, removes nothing and
re-enters: no amount of fuel finishes it. -/
theorem finalizeLoop_stuck (bi : BlockIndices) :
    ∀ fuel, finalizeLoop fuel [5] [] bi = none := by
  intro fuel
  induction fuel with
  | zero => rfl
  | succ n ih => exact ih

/-- The loop of `finalize_block` on `treeW1` consumes chain 5 in its
first iteration but never removes the id from the worklist. -/
theorem finalizeLoop_treeW1 (fuel : Nat) :
    finalizeLoop fuel [5] [(5, chainW)] biW1 = none := by
  cases fuel with
  | zero => rfl
  | succ n =>
    show finalizeLoop n [5] [] ⟨[], [(1, 101)], [], [(1, [])]⟩ = none
    exact finalizeLoop_stuck _ n

/-- C1: code bug — the worklist loop of `finalize_block` reads an id
with `BTreeSet::first`, which does not remove it from the set, so the
loop never reaches a fixpoint once a chain id is harvested: on `treeW1`
(one side chain forking off the canonical block being finalized),
`finalize_block 0` fails to terminate for every amount of fuel. -/
theorem finalize_block_diverges (fuel : Nat) :
    BlockchainTree.finalize_block fuel treeW1 0 = none := by
  have h := finalizeLoop_treeW1 fuel
  show finalizeFinish treeW1 0 (finalizeLoop fuel [5] [(5, chainW)] biW1) = none
  rw [h]
  rfl

/-- `listMin` is `none` only on the empty list. -/
theorem listMin_eq_none : ∀ l : List Nat, listMin l = none → l = [] := by
  intro l h
  cases l with
  | nil => rfl
  | cons b bs =>
    exfalso
    unfold listMin at h
    cases h' : listMin bs with
    | none => rw [h'] at h; cases h
    | some w => rw [h'] at h; cases h

/-- The minimum returned by `listMin` is an element of the list. -/
theorem listMin_mem : ∀ (l : List Nat) (y : Nat), listMin l = some y → y ∈ l := by
  intro l
  induction l with
  | nil => intro y h; simp [listMin] at h
  | cons b bs ih =>
    intro y h
    unfold listMin at h
    cases hm : listMin bs with
    | none =>
      rw [hm] at h
      cases h
      exact List.mem_cons_self _ _
    | some z =>
      rw [hm] at h
      cases h
      by_cases hbz : b ≤ z
      · have : min b z = b := min_eq_left hbz
        rw [this]
        exact List.mem_cons_self _ _
      · have : min b z = z := min_eq_right (Nat.le_of_not_le hbz)
        rw [this]
        exact List.mem_cons_of_mem _ (ih z hm)

/-- The minimum returned by `listMin` is a lower bound of the list. -/
theorem listMin_le : ∀ (l : List Nat) (y : Nat), listMin l = some y →
    ∀ x ∈ l, y ≤ x := by
  intro l
  induction l with
  | nil => intro y h; simp [listMin] at h
  | cons b bs ih =>
    intro y h x hx
    unfold listMin at h
    cases hm : listMin bs with
    | none =>
      rw [hm] at h
      cases h
      have hbs : bs = [] := listMin_eq_none bs hm
      subst hbs
      rcases List.mem_cons.mp hx with rfl | hmem
      · exact Nat.le_refl _
      · cases hmem
    | some z =>
      rw [hm] at h
      cases h
      rcases List.mem_cons.mp hx with rfl | hmem
      · exact Nat.min_le_left _ _
      · exact Nat.le_trans (Nat.min_le_right _ _) (ih z hm x hmem)

/-- `listMin` finds any element that is a lower bound of the list. -/
theorem listMin_eq_some_of (l : List Nat) (a : Nat) (h1 : a ∈ l)
    (h2 : ∀ x ∈ l, a ≤ x) : listMin l = some a := by
  induction l with
  | nil => cases h1
  | cons b bs ih =>
    unfold listMin
    cases hm : listMin bs with
    | none =>
      have hbs : bs = [] := listMin_eq_none bs hm
      subst hbs
      rcases List.mem_cons.mp h1 with rfl | hmem
      · rfl
      · cases hmem
    | some z =>
      have hza : a ≤ z := h2 z (List.mem_cons_of_mem _ (listMin_mem bs z hm))
      have hba : a ≤ b := h2 b (List.mem_cons_self _ _)
      rcases List.mem_cons.mp h1 with rfl | hmem
      · show some (min a z) = some a
        exact congrArg some (by omega)
      · have hay : z ≤ a := listMin_le bs z hm a hmem
        have haz : a = z := Nat.le_antisymm hza hay
        subst haz
        show some (min b a) = some a
        exact congrArg some (by omega)

/-- Harvesting fork children never touches the canonical chain. -/
theorem harvestForkChildren_canonical (fork_blocks : List Nat) :
    ∀ acc, (harvestForkChildren fork_blocks acc).2.canonical_chain
      = acc.2.canonical_chain := by
  induction fork_blocks with
  | nil => intro acc; rfl
  | cons x xs ih =>
    intro acc
    unfold harvestForkChildren
    split
    · exact ih _
    · exact ih _

/-- Unindexing a chain's blocks never touches the canonical chain. -/
theorem removeChainGo_canonical (blocks : List SealedBlock) :
    ∀ acc, (removeChainGo blocks acc).2.canonical_chain = acc.2.canonical_chain := by
  induction blocks with
  | nil => intro acc; rfl
  | cons b rest ih =>
    intro acc
    unfold removeChainGo
    split
    · rw [ih _, harvestForkChildren_canonical]
      rfl
    · exact ih _

/-- `remove_chain` never touches the canonical chain. -/
theorem remove_chain_canonical (bi : BlockIndices) (chain : Chain) :
    (bi.remove_chain chain).2.canonical_chain = bi.canonical_chain :=
  removeChainGo_canonical chain.blocks ([], bi)

/-- The worklist loop of `finalize_block` never touches the canonical
chain. -/
theorem finalizeLoop_canonical (fuel : Nat) :
    ∀ R chains bi res, finalizeLoop fuel R chains bi = some res →
      res.2.canonical_chain = bi.canonical_chain := by
  induction fuel with
  | zero =>
    intro R chains bi res h
    unfold finalizeLoop at h
    split at h
    · cases h; rfl
    · cases h
  | succ n ih =>
    intro R chains bi res h
    unfold finalizeLoop at h
    split at h
    · cases h; rfl
    · split at h
      · rw [ih _ _ _ _ h, remove_chain_canonical]
      · exact ih _ _ _ _ h

/-- The harvesting loop of `finalize_canonical_blocks` never touches the
canonical chain. -/
theorem finalizeHarvestGo_canonical (entries : List (Nat × Nat)) :
    ∀ acc, (finalizeHarvestGo entries acc).2.canonical_chain
      = acc.2.canonical_chain := by
  induction entries with
  | nil => intro acc; rfl
  | cons e rest ih =>
    intro acc
    unfold finalizeHarvestGo
    split
    · rw [ih _, harvestForkChildren_canonical]
    · exact ih _

/-- After `finalize_canonical_blocks n` the canonical chain holds
exactly the former entries with key greater than `n`. -/
theorem finalize_canonical_blocks_canonical (bi : BlockIndices) (n : Nat) :
    (bi.finalize_canonical_blocks n).2.canonical_chain
      = bi.canonical_chain.filter (fun p => ¬ p.1 < n + 1) := by
  unfold BlockIndices.finalize_canonical_blocks
  rw [finalizeHarvestGo_canonical]

/-- Key membership after filtering the canonical window. -/
theorem keyMem_filter (m : List (Nat × Nat)) (n k : Nat) :
    keyMem (m.filter (fun p => ¬ p.1 < n + 1)) k ↔ keyMem m k ∧ n + 1 ≤ k := by
  simp only [keyMem, keysOf, List.mem_map, List.mem_filter, decide_eq_true_eq]
  constructor
  · rintro ⟨p, ⟨hp, hn⟩, rfl⟩
    exact ⟨⟨p, hp, rfl⟩, by omega⟩
  · rintro ⟨⟨p, hp, rfl⟩, hk⟩
    exact ⟨p, ⟨hp, by omega⟩, rfl⟩

/-- C2 counterexample: on `treeW2` (canonical keys 0, 1, 2, no side
chains), `finalize_block 1` leaves canonical keys `{2}` with
`finalized_block = 1`: the minimum key is 2, not the new
`finalized_block` value 1 as the claim states. -/
theorem finalize_block_min_key_counterexample :
    BlockchainTree.finalize_block 0 treeW2 1 = some treeW2' ∧
    treeW2'.finalized_block = 1 ∧
    minKey treeW2'.block_indices.canonical_chain = some 2 ∧
    minKey treeW2'.block_indices.canonical_chain ≠
      some treeW2'.finalized_block := by
  refine ⟨by decide, by decide, by decide, by decide⟩

/-- C2 (amended): after `finalize_block n` returns, for a canonical
window that was the contiguous range `[lo, hi]` with `lo ≤ n < hi`, the
canonical keys form the contiguous range `[finalized_block + 1, hi]`:
the minimum key equals `n + 1` (one above the new `finalized_block`
value `n`, not `n` itself) and the tip entry is still present. -/
theorem finalize_block_canonical_range (fuel : Nat) (t t' : BlockchainTree)
    (n lo hi : Nat)
    (hrange : ∀ k, keyMem t.block_indices.canonical_chain k ↔ lo ≤ k ∧ k ≤ hi)
    (hlo : lo ≤ n) (hhi : n < hi)
    (hrun : BlockchainTree.finalize_block fuel t n = some t') :
    t'.finalized_block = n ∧
    (∀ k, keyMem t'.block_indices.canonical_chain k ↔ n + 1 ≤ k ∧ k ≤ hi) ∧
    minKey t'.block_indices.canonical_chain = some (n + 1) ∧
    keyMem t'.block_indices.canonical_chain hi := by
  unfold BlockchainTree.finalize_block finalizeWith finalizeFinish at hrun
  split at hrun
  · cases hrun
  · cases hrun
    rename_i q hloop
    have hq : q.2.canonical_chain
        = (t.block_indices.finalize_canonical_blocks n).2.canonical_chain :=
      finalizeLoop_canonical fuel _ _ _ _ hloop
    have hcanon : q.2.canonical_chain
        = t.block_indices.canonical_chain.filter (fun p => ¬ p.1 < n + 1) := by
      rw [hq, finalize_canonical_blocks_canonical]
    refine ⟨rfl, ?_, ?_, ?_⟩
    · intro k
      show keyMem q.2.canonical_chain k ↔ _
      rw [hcanon, keyMem_filter, hrange]
      omega
    · show minKey q.2.canonical_chain = some (n + 1)
      apply listMin_eq_some_of
      · show keyMem q.2.canonical_chain (n + 1)
        rw [hcanon, keyMem_filter, hrange]
        omega
      · intro x hx
        have : keyMem q.2.canonical_chain x := hx
        rw [hcanon, keyMem_filter] at this
        omega
    · show keyMem q.2.canonical_chain hi
      rw [hcanon, keyMem_filter, hrange]
      omega

/-- Witness for the amended C2 on `treeW2`: finalizing at 1 leaves the
contiguous canonical range `[2, 2]` with its tip present. -/
theorem finalize_block_canonical_range_witness :
    treeW2'.finalized_block = 1 ∧
    (∀ k, keyMem treeW2'.block_indices.canonical_chain k ↔ 2 ≤ k ∧ k ≤ 2) ∧
    minKey treeW2'.block_indices.canonical_chain = some 2 ∧
    keyMem treeW2'.block_indices.canonical_chain 2 :=
  finalize_block_canonical_range 0 treeW2 treeW2' 1 0 2
    (by
      intro k
      simp only [keyMem, keysOf, treeW2]
      simp
      omega)
    (by decide) (by decide) (by decide)

/-- `insert_chain` returns the current generator value and bumps it by
one. -/
theorem insert_chain_gen (t : BlockchainTree) (c : Chain) (p : Nat × BlockchainTree)
    (h : t.insert_chain c = some p) :
    p.1 = t.chain_id_generator ∧
    p.2.chain_id_generator = t.chain_id_generator + 1 := by
  unfold BlockchainTree.insert_chain at h
  split at h
  · cases h
  · cases h
    exact ⟨rfl, rfl⟩

/-- `join_block_to_chain` never decreases the id generator. -/
theorem join_block_to_chain_gen (t : BlockchainTree) (block : SealedBlock)
    (chain_id : Nat) (consensus : Consensus) (r : Except TreeError Unit × BlockchainTree)
    (h : t.join_block_to_chain block chain_id consensus = some r) :
    t.chain_id_generator ≤ r.2.chain_id_generator := by
  unfold BlockchainTree.join_block_to_chain at h
  split at h
  · cases h; exact Nat.le_refl _
  · split at h
    · cases h
    · split at h
      · split at h
        · cases h; exact Nat.le_refl _
        · cases h; exact Nat.le_refl _
      · split at h
        · cases h
        · split at h
          · cases h
          · cases h
            rename_i p hins
            have hp := (insert_chain_gen t _ p hins).2
            show t.chain_id_generator ≤ p.2.chain_id_generator
            omega

/-- `insert_block` never decreases the id generator. -/
theorem insert_block_gen (t : BlockchainTree) (block : SealedBlock)
    (consensus : Consensus) (r : Except TreeError Unit × BlockchainTree)
    (h : t.insert_block block consensus = some r) :
    t.chain_id_generator ≤ r.2.chain_id_generator := by
  unfold BlockchainTree.insert_block at h
  split at h
  · cases h; exact Nat.le_refl _
  · split at h
    · cases h; exact Nat.le_refl _
    · split at h
      · split at h
        · cases h
        · cases h
          rename_i t1 hjoin
          exact join_block_to_chain_gen t block _ consensus _ hjoin
        · cases h
          rename_i t1 hjoin
          exact join_block_to_chain_gen t block _ consensus _ hjoin
      · split at h
        · split at h
          · cases h; exact Nat.le_refl _
          · split at h
            · cases h
            · cases h
              rename_i p hins
              have hp := (insert_chain_gen t _ p hins).2
              show t.chain_id_generator ≤ p.2.chain_id_generator
              omega
        · cases h; exact Nat.le_refl _

/-- `finalize_block` keeps the id generator unchanged. -/
theorem finalize_block_gen (fuel : Nat) (t : BlockchainTree) (n : Nat)
    (t' : BlockchainTree) (h : BlockchainTree.finalize_block fuel t n = some t') :
    t'.chain_id_generator = t.chain_id_generator := by
  unfold BlockchainTree.finalize_block finalizeWith finalizeFinish at h
  split at h
  · cases h
  · cases h; rfl

/-- `make_canonical` never decreases the id generator. -/
theorem make_canonical_gen (fuel : Nat) (t : BlockchainTree) (hash : Nat)
    (r : Except Unit Unit × BlockchainTree)
    (h : BlockchainTree.make_canonical fuel t hash = some r) :
    t.chain_id_generator ≤ r.2.chain_id_generator := by
  unfold BlockchainTree.make_canonical at h
  split at h
  · cases h; exact Nat.le_refl _
  · split at h
    · cases h
    · simp only [Chain.split_at_block_hash] at h
      cases h

/-- One public operation never decreases the id generator. -/
theorem runOp_gen (consensus : Consensus) (op : TreeOp) (t t' : BlockchainTree)
    (h : runOp consensus op t = some t') :
    t.chain_id_generator ≤ t'.chain_id_generator := by
  cases op with
  | insert block =>
    simp only [runOp] at h
    cases hib : t.insert_block block consensus with
    | none => rw [hib] at h; cases h
    | some r =>
      rw [hib] at h
      simp only [Option.map] at h
      cases h
      exact insert_block_gen t block consensus r hib
  | finalize fuel n =>
    simp only [runOp] at h
    exact Nat.le_of_eq (finalize_block_gen fuel t n t' h).symm
  | makeCanon fuel hash =>
    simp only [runOp] at h
    cases hmc : BlockchainTree.make_canonical fuel t hash with
    | none => rw [hmc] at h; cases h
    | some r =>
      rw [hmc] at h
      simp only [Option.map] at h
      cases h
      exact make_canonical_gen fuel t hash r hmc

/-- A sequence of public operations never decreases the id generator. -/
theorem runOps_gen (consensus : Consensus) (ops : List TreeOp) :
    ∀ t t', runOps consensus ops t = some t' →
      t.chain_id_generator ≤ t'.chain_id_generator := by
  induction ops with
  | nil =>
    intro t t' h
    cases h
    exact Nat.le_refl _
  | cons op rest ih =>
    intro t t' h
    unfold runOps at h
    cases hop : runOp consensus op t with
    | none => rw [hop] at h; cases h
    | some t1 =>
      rw [hop] at h
      exact Nat.le_trans (runOp_gen consensus op t t1 hop) (ih t1 t' h)

/-- C9: chain ids are assigned monotonically and never reused: a call to
`insert_chain` returns the generator value and bumps it, no public
operation ever decreases the generator, so across any sequence of public
operations a later successful `insert_chain` returns a strictly greater
id than an earlier one. -/
theorem chain_ids_monotone (t t2 t3 t4 : BlockchainTree) (c1 c2 : Chain)
    (ops : List TreeOp) (consensus : Consensus) (id1 id2 : Nat)
    (h1 : t.insert_chain c1 = some (id1, t2))
    (h2 : runOps consensus ops t2 = some t3)
    (h3 : t3.insert_chain c2 = some (id2, t4)) :
    id1 < id2 := by
  have g1 := insert_chain_gen t c1 (id1, t2) h1
  have g2 := runOps_gen consensus ops t2 t3 h2
  have g3 := insert_chain_gen t3 c2 (id2, t4) h3
  simp only at g1 g2 g3
  omega

/-- Witness for C9: on a fresh tree, an insertion, a `make_canonical` of
an unknown hash and a second insertion assign ids 0 and then 1. -/
theorem chain_ids_monotone_witness : (0 : Nat) < 1 :=
  chain_ids_monotone treeW9 treeW9a treeW9a treeW9c chainW9a chainW9b
    [.makeCanon 0 999] acceptAll 0 1 (by decide) (by decide) (by decide)

end RethTree
